import Mathlib

/-!
# Verification of the LamportDeadlock repository

Shallow embedding of the core of the repository:

* `src/src/deadlock_detector.py` — wait-for-graph construction and DFS
  cycle detection (`build_wait_for_graph`, `detect_cycle`,
  `_is_cyclic_util`);
* `src/src/db_resources.py` — the `User` process with its marker-based
  snapshot protocol (`receive_marker`, `initiate_snapshot`,
  `record_local_state`, `try_acquire_lock`, `perform_action`);
* `src/src/db_system.py` — the `LockManager` (`acquire_lock`,
  `release_lock`) and `ClientConnection.__perform_write_transaction`.

Python dictionaries are modelled as association lists in insertion
order, sets as lists with membership semantics, table/user objects by
their ids/names, and sources of nondeterminism (random choices, lock
grant timing, the shared shutdown flag read at distinct instants) as
explicit oracle parameters.
-/

namespace LamportDeadlock

/-! ## Association-list model of Python dict assignment

`dictInsert d k v` models `d[k] = v` on a `dict` whose keys are unique
(all dictionaries built by the embedded code start empty and are only
updated through `dictInsert`): an existing key keeps its position and
gets the new value, a new key is appended. -/

def dictInsert {α : Type} : List (Nat × α) → Nat → α → List (Nat × α)
  | [], k, v => [(k, v)]
  | (k', v') :: rest, k, v =>
      if k' = k then (k, v) :: rest else (k', v') :: dictInsert rest k v

/-- `d.get(k)` / `k in d` on an association list. -/
def lookup? {α : Type} (d : List (Nat × α)) (k : Nat) : Option α :=
  (d.find? (fun p => p.1 == k)).map Prod.snd

/-! ## Section 1: the deadlock detector (`src/src/deadlock_detector.py`)

`collect_global_state` produces a dict `user_id -> {"held_locks": [table ids],
"waiting_for": table id | None}`; `PState` is one such per-user record. -/

structure PState where
  held_locks : List Nat
  waiting_for : Option Nat
deriving Repr, DecidableEq

abbrev GlobalState := List (Nat × PState)

/-- The wait-for graph: `defaultdict(list)` from user id to the list of
user ids appended for it (insertion order). -/
abbrev Graph := List (Nat × List Nat)

/-- `graph[k].append(v)` on a `defaultdict(list)`: append to the existing
entry, or create the key with a one-element list. -/
def graphAppend : Graph → Nat → Nat → Graph
  | [], k, v => [(k, [v])]
  | (k', l) :: rest, k, v =>
      if k' = k then (k', l ++ [v]) :: rest else (k', l) :: graphAppend rest k v

/-- `graph.get(node, [])`. -/
def adjOf (G : Graph) (n : Nat) : List Nat :=
  ((G.find? (fun p => p.1 == n)).map Prod.snd).getD []

/-- First loop of `DeadlockDetector.build_wait_for_graph`:
`table_holders[table_id] = user_id` for every held table of every user,
in iteration order (a later holder overwrites an earlier one). -/
def tableHolders (gs : GlobalState) : List (Nat × Nat) :=
  gs.foldl (fun th p => p.2.held_locks.foldl (fun th' t => dictInsert th' t p.1) th) []

/-- Body of the second loop of `build_wait_for_graph`: add the edge
`user -> holder` when the user waits on a table with a known holder
other than itself. -/
def buildStep (th : List (Nat × Nat)) (g : Graph) (p : Nat × PState) : Graph :=
  match p.2.waiting_for with
  | none => g
  | some w =>
      match lookup? th w with
      | none => g
      | some holder => if p.1 ≠ holder then graphAppend g p.1 holder else g

/-- `DeadlockDetector.build_wait_for_graph`. -/
def build_wait_for_graph (gs : GlobalState) : Graph :=
  gs.foldl (buildStep (tableHolders gs)) []

/-! DFS cycle detection, `DeadlockDetector.detect_cycle` /
`DeadlockDetector._is_cyclic_util`.  The Python recursion is structural
except for the DFS descent, which we drive by a fuel parameter;
`detect_cycle` passes fuel exceeding the number of graph nodes, and
`is_cyclic_util_fuel_sufficient` below shows the fuel never runs out
(`none` is never returned at that fuel).

`is_cyclic_util G fuel node visiting visited` returns
`some (found, visited')`: `found` is the Python return value and
`visited'` the `visited` set after the call (on a `True` return the
Python function aborts the caller loops, so the set state it leaves
behind is only ever observed threaded through to `detect_cycle`'s
answer, which we also model).  The `visiting` set is restored by the
Python code on a `False` return, so the caller keeps its own copy. -/

/-- The `for neighbor in graph.get(node, [])` loop inside
`_is_cyclic_util`; `visiting` already contains `node` at its head, and
`icu` is the recursive DFS descent (instantiated with the next fuel
level below). -/
def visit_neighbors (icu : Nat → List Nat → List Nat → Option (Bool × List Nat)) :
    List Nat → List Nat → List Nat → Option (Bool × List Nat)
  | [], _, visited => some (false, visited)
  | n :: ns, visiting, visited =>
      if n ∈ visiting then some (true, visited)
      else if n ∈ visited then visit_neighbors icu ns visiting visited
      else
        match icu n visiting visited with
        | none => none
        | some (true, visited1) => some (true, visited1)
        | some (false, visited1) => visit_neighbors icu ns visiting visited1

def is_cyclic_util (G : Graph) : Nat → Nat → List Nat → List Nat → Option (Bool × List Nat)
  | 0, _, _, _ => none
  | fuel + 1, node, visiting, visited =>
      match visit_neighbors (is_cyclic_util G fuel) (adjOf G node) (node :: visiting) visited with
      | none => none
      | some (true, visited1) => some (true, visited1)
      | some (false, visited1) => some (false, node :: visited1)

/-- The `for node in list(graph.keys())` loop of `detect_cycle`. -/
def detect_cycle_loop (G : Graph) (fuel : Nat) : List Nat → List Nat → Option Bool
  | [], _ => some false
  | k :: ks, visited =>
      if k ∈ visited then detect_cycle_loop G fuel ks visited
      else
        match is_cyclic_util G fuel k [] visited with
        | none => none
        | some (true, _) => some true
        | some (false, visited1) => detect_cycle_loop G fuel ks visited1

/-- All node ids occurring in the graph (keys and neighbors), deduplicated. -/
def universeOf (G : Graph) : List Nat :=
  (G.map Prod.fst ++ (G.map Prod.snd).flatten).dedup

/-- `DeadlockDetector.detect_cycle`.  The fuel bound exceeds the number
of distinct nodes, so the DFS always completes (proved below). -/
def detect_cycle (G : Graph) : Bool :=
  (detect_cycle_loop G ((universeOf G).length + 1) (G.map Prod.fst) []).getD false

/-- `u` waits on `v` in graph `G` (specification-side edge relation). -/
def edge (G : Graph) (u v : Nat) : Prop := v ∈ adjOf G u

instance (G : Graph) (u v : Nat) : Decidable (edge G u v) := by
  unfold edge; infer_instance

/-- `G` contains a directed cycle: some node reaches itself by a
nonempty edge path. -/
def hasCycle (G : Graph) : Prop := ∃ u, Relation.TransGen (edge G) u u

/-! ## Section 2: the `User` process (`src/src/db_resources.py`)

Tables are modelled by id together with their `threading.Lock` state and
`locked_by` field. -/

structure SimTable where
  id : Nat
  lock : Bool
  locked_by : Option Nat
deriving Repr, DecidableEq

structure UserState where
  id : Nat
  held_locks : List Nat
  waiting_for : Option Nat
  running : Bool
  local_state : List (Nat × PState)
  received_marker : List Nat
deriving Repr, DecidableEq

/-- A user as constructed by `User.__init__`. -/
def mkUser (uid : Nat) : UserState :=
  { id := uid, held_locks := [], waiting_for := none, running := true
    local_state := [], received_marker := [] }

structure Marker where
  from_user : Nat
  snapshot_id : Nat
deriving Repr, DecidableEq

/-- `User.record_local_state`. -/
def record_local_state (u : UserState) (sid : Nat) : UserState :=
  { u with local_state :=
      dictInsert u.local_state sid ⟨u.held_locks, u.waiting_for⟩ }

/-- The markers put into the other users' `in_channel` queues by the
`for user in self.all_users: if user.id != self.id` loop. -/
def markerSends (allIds : List Nat) (u : UserState) (sid : Nat) : List (Nat × Marker) :=
  (allIds.filter (fun i => i ≠ u.id)).map (fun i => (i, ⟨u.id, sid⟩))

/-- `User.receive_marker`; returns the updated user together with the
list of (recipient id, marker) messages sent. -/
def receive_marker (allIds : List Nat) (u : UserState) (_from_user : Nat) (sid : Nat) :
    UserState × List (Nat × Marker) :=
  if sid ∈ u.received_marker then (u, [])
  else
    let u1 := record_local_state u sid
    let u2 := { u1 with received_marker := u1.received_marker ++ [sid] }
    (u2, markerSends allIds u sid)

/-- `User.initiate_snapshot`; identical body except for the absent
sender argument. -/
def initiate_snapshot (allIds : List Nat) (u : UserState) (sid : Nat) :
    UserState × List (Nat × Marker) :=
  if sid ∈ u.received_marker then (u, [])
  else
    let u1 := record_local_state u sid
    let u2 := { u1 with received_marker := u1.received_marker ++ [sid] }
    (u2, markerSends allIds u sid)

/-- `User.try_acquire_lock` on a table `t`; `grant` is whether
`table.lock.acquire(blocking=True, timeout=1)` returned `True`
(environment/timing oracle).  Returns the updated user and table. -/
def try_acquire_lock (grant : Bool) (u : UserState) (t : SimTable) :
    UserState × SimTable :=
  if t.id ∈ u.held_locks then ({ u with waiting_for := none }, t)
  else if grant then
    if u.running = false then
      ({ u with waiting_for := none }, { t with lock := false })
    else
      ({ u with held_locks := u.held_locks ++ [t.id], waiting_for := none },
       { t with lock := true, locked_by := some u.id })
  else (u, t)

/-- The oracle feeding `User.perform_action`: the `random.choice` of
read/write, the `random.choice` of table (with its current lock state),
and the grant outcome of the bounded-timeout acquire. -/
structure ActionOracle where
  act_write : Bool
  chosen : SimTable
  grant : Bool

/-- `User.perform_action`.  When `waiting_for = some t`, `o.chosen` is
the table the user is waiting on (the Python code stores the `Table`
object itself in `waiting_for`). -/
def perform_action (o : ActionOracle) (u : UserState) : UserState × SimTable :=
  if u.running = false then (u, o.chosen)
  else
    match u.waiting_for with
    | some _ => try_acquire_lock o.grant u o.chosen
    | none =>
        if o.act_write then
          try_acquire_lock o.grant { u with waiting_for := some o.chosen.id } o.chosen
        else (u, o.chosen)

/-- One scheduling event of a user: an action turn (with its oracle; the
chosen table must be the waited-on one while a goal is outstanding), a
`stop()` signal, or a protocol message. -/
inductive UStep : UserState → UserState → Prop where
  | act (u : UserState) (o : ActionOracle)
      (h : ∀ t, u.waiting_for = some t → o.chosen.id = t) :
      UStep u (perform_action o u).1
  | stop (u : UserState) : UStep u { u with running := false }
  | recv (u : UserState) (allIds : List Nat) (frm sid : Nat) :
      UStep u (receive_marker allIds u frm sid).1
  | init (u : UserState) (allIds : List Nat) (sid : Nat) :
      UStep u (initiate_snapshot allIds u sid).1

/-- States a user can be in, starting from construction. -/
def UReachable (uid : Nat) (u : UserState) : Prop :=
  Relation.ReflTransGen UStep (mkUser uid) u

/-! ## Section 3: the `LockManager` system (`src/src/db_system.py`) -/

/-- A table as used by `db_system.py` (`name`, `write_lock`,
`lock_owner`). -/
structure DbTable where
  name : Nat
  write_lock : Bool
  lock_owner : Option Nat
deriving Repr, DecidableEq

/-- A `ClientConnection`'s lock-related fields (`locked_tables` is a
Python set; we keep a duplicate-free list). -/
structure Conn where
  name : Nat
  locked_tables : List Nat
  waiting_for_table : Option Nat
deriving Repr, DecidableEq

/-- `self.tables.get(table_name)` on the `LockManager` registry. -/
def findTable (tables : List DbTable) (tname : Nat) : Option DbTable :=
  tables.find? (fun t => t.name == tname)

def updateTable (tables : List DbTable) (tname : Nat) (f : DbTable → DbTable) :
    List DbTable :=
  tables.map (fun t => if t.name == tname then f t else t)

/-- Python `set.add`. -/
def setAdd (s : List Nat) (x : Nat) : List Nat := if x ∈ s then s else s ++ [x]

inductive AcqOutcome where
  | unknown | blocked | abandoned | granted
deriving Repr, DecidableEq

/-- `LockManager.acquire_lock`.  `sd` is the value
`self.shutdown_event.is_set()` reads immediately after the raw lock is
granted.  A held `write_lock` blocks the caller (`.blocked`); the only
state visible then is the already-assigned `waiting_for_table`.  On the
shutdown re-check the just-acquired raw lock is released again (net
lock state unchanged) and the function returns with
`waiting_for_table` still set. -/
def acquire_lock (sd : Bool) (tables : List DbTable) (conn : Conn) (tname : Nat) :
    List DbTable × Conn × AcqOutcome :=
  match findTable tables tname with
  | none => (tables, conn, .unknown)
  | some t =>
      let conn1 := { conn with waiting_for_table := some tname }
      if t.write_lock then (tables, conn1, .blocked)
      else if sd then (tables, conn1, .abandoned)
      else
        (updateTable tables tname
           (fun tb => { tb with write_lock := true, lock_owner := some conn.name }),
         { conn1 with locked_tables := setAdd conn1.locked_tables tname,
                      waiting_for_table := none },
         .granted)

/-- `LockManager.release_lock`; the returned `Bool` is whether the
`WARNING: ... tried to release lock ... which is not held` message was
logged.  Unknown tables and tables not in the caller's `locked_tables`
return silently before that check. -/
def release_lock (tables : List DbTable) (conn : Conn) (tname : Nat) :
    List DbTable × Conn × Bool :=
  match findTable tables tname with
  | none => (tables, conn, false)
  | some t =>
      if tname ∈ conn.locked_tables then
        if t.lock_owner = some conn.name then
          (updateTable tables tname
             (fun tb => { tb with write_lock := false, lock_owner := none }),
           { conn with locked_tables := conn.locked_tables.filter (fun y => y ≠ tname) },
           false)
        else (tables, conn, true)
      else (tables, conn, false)

/-! `ClientConnection.__perform_write_transaction`.  The shared
`shutdown_event` is read at several distinct instants; `sd : Nat → Bool`
gives the value of read number `k` (the flag is set once by the detector
and never cleared, so realistic oracles are monotone).  Iteration `i` of
the acquisition loop performs reads `3*i` (loop-top check), `3*i+1`
(the re-check inside `acquire_lock` after the raw lock is granted) and
`3*i+2` (the caller's check after `acquire_lock` returns); the final
pre-write check is read `3*names.length`. -/

/-- The `for i, table in enumerate(tables_to_lock)` loop.  Returns the
tables, the connection, the `acquired_locks` list, and whether the
transaction hung forever inside a blocking `acquire` (in which case the
`finally` block is never reached). -/
def txLoop (sd : Nat → Bool) : List DbTable → Conn → List Nat → Nat → List Nat →
    List DbTable × Conn × List Nat × Bool
  | tables, conn, [], _, acquired => (tables, conn, acquired, false)
  | tables, conn, tname :: rest, i, acquired =>
      if sd (3 * i) then (tables, conn, acquired, false)
      else
        match acquire_lock (sd (3 * i + 1)) tables conn tname with
        | (tb, cn, AcqOutcome.blocked) => (tb, cn, acquired, true)
        | (tb, cn, _) =>
            if sd (3 * i + 2) then (tb, cn, acquired, false)
            else txLoop sd tb cn rest (i + 1) (acquired ++ [tname])

/-- The `finally` block: `for table in reversed(acquired_locks):
release_lock`.  Returns the state and the sequence of table names the
release calls were issued for, in call order. -/
def releaseAll : List DbTable → Conn → List Nat → List DbTable × Conn × List Nat
  | tables, conn, [] => (tables, conn, [])
  | tables, conn, t :: ts =>
      match release_lock tables conn t with
      | (tb, cn, _) =>
          match releaseAll tb cn ts with
          | (tb2, cn2, rs) => (tb2, cn2, t :: rs)

structure TxResult where
  tables : List DbTable
  conn : Conn
  performed_write : Bool
  acquired : List Nat
  releases : List Nat
  hung : Bool
deriving Repr, DecidableEq

/-- `ClientConnection.__perform_write_transaction` for a fixed sampled
table list `names` (the `random.sample` outcome). -/
def perform_write_transaction (sd : Nat → Bool) (tables : List DbTable) (conn : Conn)
    (names : List Nat) : TxResult :=
  match txLoop sd tables conn names 0 [] with
  | (tb, cn, acquired, true) =>
      { tables := tb, conn := cn, performed_write := false,
        acquired := acquired, releases := [], hung := true }
  | (tb, cn, acquired, false) =>
      let performed := !sd (3 * names.length) && (acquired.length == names.length)
      match releaseAll tb cn acquired.reverse with
      | (tb2, cn2, rel) =>
          { tables := tb2, conn := cn2, performed_write := performed,
            acquired := acquired, releases := rel, hung := false }

/-! Interleaved executions of the `LockManager` shared state: each step
is one `acquire_lock` or `release_lock` call performed on behalf of one
connection, in an arbitrary order across connections. -/

structure SysState where
  tables : List DbTable
  conns : List Conn
deriving Repr, DecidableEq

inductive SysOp where
  | acquire (cname tname : Nat) (sd : Bool)
  | release (cname tname : Nat)
deriving Repr, DecidableEq

def getConn (s : SysState) (c : Nat) : Option Conn :=
  s.conns.find? (fun k => k.name == c)

def setConn (conns : List Conn) (c : Nat) (cn : Conn) : List Conn :=
  conns.map (fun k => if k.name == c then cn else k)

def sysStep (s : SysState) : SysOp → SysState
  | .acquire c tname sd =>
      match getConn s c with
      | none => s
      | some conn =>
          match acquire_lock sd s.tables conn tname with
          | (tb, cn, _) => { tables := tb, conns := setConn s.conns c cn }
  | .release c tname =>
      match getConn s c with
      | none => s
      | some conn =>
          match release_lock s.tables conn tname with
          | (tb, cn, _) => { tables := tb, conns := setConn s.conns c cn }

def runOps (s0 : SysState) (ops : List SysOp) : SysState := ops.foldl sysStep s0

/-- `ops.get? k` was an acquire of `tname` by `p` whose outcome, in the
state reached after the first `k` operations, was `.granted`. -/
def GrantedAt (s0 : SysState) (ops : List SysOp) (k : Nat) (p tname : Nat) : Prop :=
  ∃ sd conn,
    ops[k]? = some (SysOp.acquire p tname sd) ∧
    getConn (runOps s0 (ops.take k)) p = some conn ∧
    (acquire_lock sd (runOps s0 (ops.take k)).tables conn tname).2.2 = AcqOutcome.granted

/-! ## Correctness of the DFS cycle detection -/

/-- Every node of `V` has all its successors in `V`. -/
def Closed (G : Graph) (V : List Nat) : Prop :=
  ∀ u ∈ V, ∀ v, edge G u v → v ∈ V

/-- No node of `V` lies on a directed cycle. -/
def CycFree (G : Graph) (V : List Nat) : Prop :=
  ∀ u ∈ V, ¬ Relation.TransGen (edge G) u u

/-- The DFS stack invariant: every node on the `visiting` stack (with
`node` on top) reaches `node`. -/
def StackOK (G : Graph) (node : Nat) (visiting : List Nat) : Prop :=
  ∀ x ∈ node :: visiting, Relation.ReflTransGen (edge G) x node

theorem closed_reach {G : Graph} {V : List Nat} (hV : Closed G V) {x y : Nat}
    (hx : x ∈ V) (h : Relation.ReflTransGen (edge G) x y) : y ∈ V := by
  induction h with
  | refl => exact hx
  | tail _ he ih => exact hV _ ih _ he

theorem stackOK_push {G : Graph} {node : Nat} {visiting : List Nat} {n : Nat}
    (hs : StackOK G node visiting) (he : edge G node n) :
    StackOK G n (node :: visiting) := by
  intro x hx
  rcases List.mem_cons.mp hx with rfl | hx'
  · exact Relation.ReflTransGen.refl
  · exact (hs x hx').tail he

/-- If the DFS reports `True`, the graph has a directed cycle. -/
theorem dfs_sound (G : Graph) (fuel : Nat) :
    (∀ node visiting visited r,
        StackOK G node visiting →
        is_cyclic_util G fuel node visiting visited = some (true, r) →
        hasCycle G) ∧
    (∀ ns node visiting visited r,
        StackOK G node visiting → (∀ n ∈ ns, edge G node n) →
        visit_neighbors (is_cyclic_util G fuel) ns (node :: visiting) visited = some (true, r) →
        hasCycle G) := by
  induction fuel with
  | zero =>
    refine ⟨fun node visiting visited r _ h => by simp [is_cyclic_util] at h, ?_⟩
    intro ns
    induction ns with
    | nil =>
      intro node visiting visited r _ _ h
      simp [visit_neighbors] at h
    | cons n ns ihns =>
      intro node visiting visited r hstack hedges h
      by_cases h1 : n ∈ node :: visiting
      · exact ⟨n, Relation.TransGen.tail' (hstack n h1)
          (hedges n (List.mem_cons_self n ns))⟩
      · by_cases h2 : n ∈ visited
        · rw [visit_neighbors, if_neg h1, if_pos h2] at h
          exact ihns node visiting visited r hstack
            (fun m hm => hedges m (List.mem_cons_of_mem n hm)) h
        · rw [visit_neighbors, if_neg h1, if_neg h2] at h
          simp [is_cyclic_util] at h
  | succ f ih =>
    have hP : ∀ node visiting visited r,
        StackOK G node visiting →
        is_cyclic_util G (f + 1) node visiting visited = some (true, r) →
        hasCycle G := by
      intro node visiting visited r hstack h
      rw [is_cyclic_util] at h
      cases hvn : visit_neighbors (is_cyclic_util G f) (adjOf G node) (node :: visiting) visited with
      | none => rw [hvn] at h; exact absurd h (by simp)
      | some p =>
        rcases p with ⟨b, visited1⟩
        cases b with
        | true =>
          exact ih.2 (adjOf G node) node visiting visited visited1 hstack
            (fun n hn => hn) hvn
        | false => rw [hvn] at h; exact absurd h (by simp)
    refine ⟨hP, ?_⟩
    intro ns
    induction ns with
    | nil =>
      intro node visiting visited r _ _ h
      simp [visit_neighbors] at h
    | cons n ns ihns =>
      intro node visiting visited r hstack hedges h
      by_cases h1 : n ∈ node :: visiting
      · exact ⟨n, Relation.TransGen.tail' (hstack n h1)
          (hedges n (List.mem_cons_self n ns))⟩
      · by_cases h2 : n ∈ visited
        · rw [visit_neighbors, if_neg h1, if_pos h2] at h
          exact ihns node visiting visited r hstack
            (fun m hm => hedges m (List.mem_cons_of_mem n hm)) h
        · rw [visit_neighbors, if_neg h1, if_neg h2] at h
          cases hicu : is_cyclic_util G (f + 1) n (node :: visiting) visited with
          | none => rw [hicu] at h; exact absurd h (by simp)
          | some p =>
            rcases p with ⟨b, visited1⟩
            cases b with
            | true =>
              exact hP n (node :: visiting) visited visited1
                (stackOK_push hstack (hedges n (List.mem_cons_self n ns))) hicu
            | false =>
              rw [hicu] at h
              exact ihns node visiting visited1 r hstack
                (fun m hm => hedges m (List.mem_cons_of_mem n hm)) h

/-- If the DFS returns `False` from a node, the visited set it leaves
behind is closed under edges, cycle-free, contains the node, and stays
disjoint from the surrounding stack. -/
theorem dfs_false_inv (G : Graph) (fuel : Nat) :
    (∀ node visiting visited V,
        Closed G visited → CycFree G visited →
        (∀ x ∈ visited, x ∉ node :: visiting) → node ∉ visiting →
        is_cyclic_util G fuel node visiting visited = some (false, V) →
        visited ⊆ V ∧ node ∈ V ∧ Closed G V ∧ CycFree G V ∧
          (∀ x ∈ V, x ∉ visiting)) ∧
    (∀ ns node visiting visited V,
        Closed G visited → CycFree G visited →
        (∀ x ∈ visited, x ∉ node :: visiting) → node ∉ visiting →
        (∀ n ∈ ns, edge G node n) →
        visit_neighbors (is_cyclic_util G fuel) ns (node :: visiting) visited = some (false, V) →
        visited ⊆ V ∧ Closed G V ∧ CycFree G V ∧
          (∀ x ∈ V, x ∉ node :: visiting) ∧ (∀ n ∈ ns, n ∈ V)) := by
  induction fuel with
  | zero =>
    refine ⟨fun node visiting visited V _ _ _ _ h => by simp [is_cyclic_util] at h, ?_⟩
    intro ns
    induction ns with
    | nil =>
      intro node visiting visited V hC hF hD hN _ h
      rw [visit_neighbors] at h
      cases h
      exact ⟨fun x hx => hx, hC, hF, hD, by simp⟩
    | cons n ns ihns =>
      intro node visiting visited V hC hF hD hN hE h
      by_cases h1 : n ∈ node :: visiting
      · rw [visit_neighbors, if_pos h1] at h; cases h
      · by_cases h2 : n ∈ visited
        · rw [visit_neighbors, if_neg h1, if_pos h2] at h
          obtain ⟨s1, s2, s3, s4, s5⟩ := ihns node visiting visited V hC hF hD hN
            (fun m hm => hE m (List.mem_cons_of_mem n hm)) h
          exact ⟨s1, s2, s3, s4, fun m hm =>
            List.mem_cons.mp hm |>.elim (fun e => e ▸ s1 h2) (s5 m)⟩
        · rw [visit_neighbors, if_neg h1, if_neg h2] at h
          simp [is_cyclic_util] at h
  | succ f ih =>
    have hP : ∀ node visiting visited V,
        Closed G visited → CycFree G visited →
        (∀ x ∈ visited, x ∉ node :: visiting) → node ∉ visiting →
        is_cyclic_util G (f + 1) node visiting visited = some (false, V) →
        visited ⊆ V ∧ node ∈ V ∧ Closed G V ∧ CycFree G V ∧
          (∀ x ∈ V, x ∉ visiting) := by
      intro node visiting visited V hC hF hD hN h
      rw [is_cyclic_util] at h
      cases hvn : visit_neighbors (is_cyclic_util G f) (adjOf G node) (node :: visiting) visited with
      | none => rw [hvn] at h; cases h
      | some p =>
        rcases p with ⟨b, V1⟩
        cases b with
        | true => rw [hvn] at h; cases h
        | false =>
          rw [hvn] at h
          cases h
          obtain ⟨s1, s3, s4, s5, s6⟩ := ih.2 (adjOf G node) node visiting visited V1
            hC hF hD hN (fun n hn => hn) hvn
          refine ⟨fun x hx => List.mem_cons_of_mem _ (s1 hx),
            List.mem_cons_self _ _, ?_, ?_, ?_⟩
          · intro u hu v hv
            rcases List.mem_cons.mp hu with rfl | hu'
            · exact List.mem_cons_of_mem _ (s6 v hv)
            · exact List.mem_cons_of_mem _ (s3 u hu' v hv)
          · intro u hu htg
            rcases List.mem_cons.mp hu with rfl | hu'
            · obtain ⟨m, hm, hmr⟩ := Relation.TransGen.head'_iff.mp htg
              have hmV : m ∈ V1 := s6 m hm
              have : u ∈ V1 := closed_reach s3 hmV hmr
              exact s5 u this (List.mem_cons_self _ _)
            · exact s4 u hu' htg
          · intro x hx
            rcases List.mem_cons.mp hx with rfl | hx'
            · exact hN
            · exact fun hv => s5 x hx' (List.mem_cons_of_mem _ hv)
    refine ⟨hP, ?_⟩
    intro ns
    induction ns with
    | nil =>
      intro node visiting visited V hC hF hD hN _ h
      rw [visit_neighbors] at h
      cases h
      exact ⟨fun x hx => hx, hC, hF, hD, by simp⟩
    | cons n ns ihns =>
      intro node visiting visited V hC hF hD hN hE h
      by_cases h1 : n ∈ node :: visiting
      · rw [visit_neighbors, if_pos h1] at h; cases h
      · by_cases h2 : n ∈ visited
        · rw [visit_neighbors, if_neg h1, if_pos h2] at h
          obtain ⟨s1, s2, s3, s4, s5⟩ := ihns node visiting visited V hC hF hD hN
            (fun m hm => hE m (List.mem_cons_of_mem n hm)) h
          exact ⟨s1, s2, s3, s4, fun m hm =>
            List.mem_cons.mp hm |>.elim (fun e => e ▸ s1 h2) (s5 m)⟩
        · rw [visit_neighbors, if_neg h1, if_neg h2] at h
          cases hicu : is_cyclic_util G (f + 1) n (node :: visiting) visited with
          | none => rw [hicu] at h; cases h
          | some p =>
            rcases p with ⟨b, V1⟩
            cases b with
            | true => rw [hicu] at h; cases h
            | false =>
              rw [hicu] at h
              have hD' : ∀ x ∈ visited, x ∉ n :: node :: visiting := by
                intro x hx
                intro hmem
                rcases List.mem_cons.mp hmem with rfl | hmem'
                · exact h2 hx
                · exact hD x hx hmem'
              obtain ⟨t1, t2, t3, t4, t5⟩ := hP n (node :: visiting) visited V1
                hC hF hD' h1 hicu
              obtain ⟨s1, s3, s4, s5, s6⟩ := ihns node visiting V1 V t3 t4
                t5 hN (fun m hm => hE m (List.mem_cons_of_mem n hm)) h
              refine ⟨fun x hx => s1 (t1 hx), s3, s4, s5, fun m hm => ?_⟩
              rcases List.mem_cons.mp hm with rfl | hm'
              · exact s1 t2
              · exact s6 m hm'

theorem adjOf_mem_universe {G : Graph} {x n : Nat} (h : n ∈ adjOf G x) :
    n ∈ universeOf G := by
  unfold adjOf at h
  cases hf : G.find? (fun p => p.1 == x) with
  | none => rw [hf] at h; simp at h
  | some p =>
    rw [hf] at h
    simp only [Option.map_some', Option.getD_some] at h
    have hp : p ∈ G := List.mem_of_find?_eq_some hf
    unfold universeOf
    exact List.mem_dedup.mpr (List.mem_append.mpr (Or.inr
      (List.mem_flatten.mpr ⟨p.2, List.mem_map_of_mem Prod.snd hp, h⟩)))

theorem keys_mem_universe {G : Graph} {k : Nat} (h : k ∈ G.map Prod.fst) :
    k ∈ universeOf G :=
  List.mem_dedup.mpr (List.mem_append.mpr (Or.inl h))

theorem edge_mem_keys {G : Graph} {u v : Nat} (h : edge G u v) :
    u ∈ G.map Prod.fst := by
  unfold edge adjOf at h
  cases hf : G.find? (fun p => p.1 == u) with
  | none => rw [hf] at h; simp at h
  | some p =>
    have hp : p ∈ G := List.mem_of_find?_eq_some hf
    have hb := List.find?_some hf
    have hpu : p.1 = u := by simpa using hb
    exact hpu ▸ List.mem_map_of_mem Prod.fst hp

/-- With fuel exceeding the number of distinct nodes not yet on the
stack, the DFS never runs out of fuel. -/
theorem dfs_fuel (G : Graph) (fuel : Nat) :
    (∀ node visiting visited,
        node ∈ universeOf G → visiting ⊆ universeOf G →
        (node :: visiting).Nodup →
        (universeOf G).length + 1 ≤ fuel + (node :: visiting).length →
        is_cyclic_util G fuel node visiting visited ≠ none) ∧
    (∀ ns node visiting visited,
        (∀ n ∈ ns, n ∈ universeOf G) → node ∈ universeOf G →
        visiting ⊆ universeOf G → (node :: visiting).Nodup →
        (universeOf G).length + 1 ≤ fuel + 1 + (node :: visiting).length →
        visit_neighbors (is_cyclic_util G fuel) ns (node :: visiting) visited ≠ none) := by
  induction fuel with
  | zero =>
    constructor
    · intro node visiting visited hu hv hnd hlen
      have hsub : (node :: visiting) ⊆ universeOf G := by
        intro x hx
        rcases List.mem_cons.mp hx with rfl | hx'
        · exact hu
        · exact hv hx'
      have := (List.subperm_of_subset hnd hsub).length_le
      omega
    · intro ns
      induction ns with
      | nil => intro node visiting visited _ _ _ _ _; simp [visit_neighbors]
      | cons n ns ihns =>
        intro node visiting visited hns hu hv hnd hlen
        rw [visit_neighbors]
        by_cases h1 : n ∈ node :: visiting
        · rw [if_pos h1]; simp
        · rw [if_neg h1]
          by_cases h2 : n ∈ visited
          · rw [if_pos h2]
            exact ihns node visiting visited
              (fun m hm => hns m (List.mem_cons_of_mem n hm)) hu hv hnd hlen
          · rw [if_neg h2]
            -- the recursive DFS call is impossible at fuel 0 given the bound
            have hsub : (n :: node :: visiting) ⊆ universeOf G := by
              intro x hx
              rcases List.mem_cons.mp hx with rfl | hx'
              · exact hns x (by simp)
              · rcases List.mem_cons.mp hx' with rfl | hx''
                · exact hu
                · exact hv hx''
            have hnd' : (n :: node :: visiting).Nodup := List.nodup_cons.mpr ⟨h1, hnd⟩
            have := (List.subperm_of_subset hnd' hsub).length_le
            simp only [List.length_cons] at this hlen
            omega
  | succ f ih =>
    have hP : ∀ node visiting visited,
        node ∈ universeOf G → visiting ⊆ universeOf G →
        (node :: visiting).Nodup →
        (universeOf G).length + 1 ≤ (f + 1) + (node :: visiting).length →
        is_cyclic_util G (f + 1) node visiting visited ≠ none := by
      intro node visiting visited hu hv hnd hlen
      rw [is_cyclic_util]
      cases hvn : visit_neighbors (is_cyclic_util G f) (adjOf G node) (node :: visiting) visited with
      | none =>
        exact absurd hvn (ih.2 (adjOf G node) node visiting visited
          (fun n hn => adjOf_mem_universe hn) hu hv hnd (by omega))
      | some p => rcases p with ⟨b, v1⟩; cases b <;> simp
    refine ⟨hP, ?_⟩
    intro ns
    induction ns with
    | nil => intro node visiting visited _ _ _ _ _; simp [visit_neighbors]
    | cons n ns ihns =>
      intro node visiting visited hns hu hv hnd hlen
      rw [visit_neighbors]
      by_cases h1 : n ∈ node :: visiting
      · rw [if_pos h1]; simp
      · rw [if_neg h1]
        by_cases h2 : n ∈ visited
        · rw [if_pos h2]
          exact ihns node visiting visited
            (fun m hm => hns m (List.mem_cons_of_mem n hm)) hu hv hnd hlen
        · rw [if_neg h2]
          cases hicu : is_cyclic_util G (f + 1) n (node :: visiting) visited with
          | none =>
            have hsub : (node :: visiting) ⊆ universeOf G := by
              intro x hx
              rcases List.mem_cons.mp hx with rfl | hx'
              · exact hu
              · exact hv hx'
            exact absurd hicu (hP n (node :: visiting) visited
              (hns n (List.mem_cons_self n ns)) hsub
              (List.nodup_cons.mpr ⟨h1, hnd⟩)
              (by simp only [List.length_cons] at hlen ⊢; omega))
          | some p =>
            rcases p with ⟨b, v1⟩
            cases b with
            | true => simp
            | false =>
              exact ihns node visiting v1
                (fun m hm => hns m (List.mem_cons_of_mem n hm)) hu hv hnd hlen

/-- The top-level loop of `detect_cycle` never runs out of fuel at the
fuel bound `detect_cycle` supplies. -/
theorem detect_cycle_loop_ne_none (G : Graph) (fuel : Nat) :
    ∀ ks visited, (∀ k ∈ ks, k ∈ universeOf G) →
      (universeOf G).length ≤ fuel →
      detect_cycle_loop G fuel ks visited ≠ none := by
  intro ks
  induction ks with
  | nil => intro visited _ _; simp [detect_cycle_loop]
  | cons k ks ihks =>
    intro visited hks hfuel
    rw [detect_cycle_loop]
    by_cases h1 : k ∈ visited
    · rw [if_pos h1]
      exact ihks visited (fun m hm => hks m (List.mem_cons_of_mem k hm)) hfuel
    · rw [if_neg h1]
      cases hicu : is_cyclic_util G fuel k [] visited with
      | none =>
        exact absurd hicu ((dfs_fuel G fuel).1 k [] visited
          (hks k (List.mem_cons_self k ks)) (by simp) (by simp)
          (by simp only [List.length_cons, List.length_nil]; omega))
      | some p =>
        rcases p with ⟨b, v1⟩
        cases b with
        | true => simp
        | false =>
          exact ihks v1 (fun m hm => hks m (List.mem_cons_of_mem k hm)) hfuel

theorem detect_cycle_loop_true (G : Graph) (fuel : Nat) :
    ∀ ks visited, detect_cycle_loop G fuel ks visited = some true → hasCycle G := by
  intro ks
  induction ks with
  | nil => intro visited h; simp [detect_cycle_loop] at h
  | cons k ks ihks =>
    intro visited h
    rw [detect_cycle_loop] at h
    by_cases h1 : k ∈ visited
    · rw [if_pos h1] at h; exact ihks visited h
    · rw [if_neg h1] at h
      cases hicu : is_cyclic_util G fuel k [] visited with
      | none => rw [hicu] at h; cases h
      | some p =>
        rcases p with ⟨b, v1⟩
        cases b with
        | true =>
          exact (dfs_sound G fuel).1 k [] visited v1
            (fun x hx => by
              rcases List.mem_cons.mp hx with rfl | hx'
              · exact Relation.ReflTransGen.refl
              · simp at hx') hicu
        | false => rw [hicu] at h; exact ihks v1 h

theorem detect_cycle_loop_false (G : Graph) (fuel : Nat) :
    ∀ ks visited, Closed G visited → CycFree G visited →
      detect_cycle_loop G fuel ks visited = some false →
      ∀ k ∈ ks, ¬ Relation.TransGen (edge G) k k := by
  intro ks
  induction ks with
  | nil => intro visited _ _ _ k hk; simp at hk
  | cons k ks ihks =>
    intro visited hC hF h m hm
    rw [detect_cycle_loop] at h
    by_cases h1 : k ∈ visited
    · rw [if_pos h1] at h
      rcases List.mem_cons.mp hm with rfl | hm'
      · exact hF m h1
      · exact ihks visited hC hF h m hm'
    · rw [if_neg h1] at h
      cases hicu : is_cyclic_util G fuel k [] visited with
      | none => rw [hicu] at h; cases h
      | some p =>
        rcases p with ⟨b, v1⟩
        cases b with
        | true => rw [hicu] at h; cases h
        | false =>
          rw [hicu] at h
          obtain ⟨s1, s2, s3, s4, _⟩ := (dfs_false_inv G fuel).1 k [] visited v1
            hC hF (fun x hx => by
              intro hmem
              rcases List.mem_cons.mp hmem with rfl | h'
              · exact h1 hx
              · simp at h') (by simp) hicu
          rcases List.mem_cons.mp hm with rfl | hm'
          · exact s4 m s2
          · exact ihks v1 s3 s4 h m hm'

/-- `detect_cycle` is a decision procedure for the existence of a
directed cycle. -/
theorem detect_cycle_correct (G : Graph) : detect_cycle G = true ↔ hasCycle G := by
  constructor
  · intro h
    unfold detect_cycle at h
    cases hl : detect_cycle_loop G ((universeOf G).length + 1) (G.map Prod.fst) [] with
    | none => rw [hl] at h; simp [Option.getD] at h
    | some b =>
      rw [hl] at h
      simp only [Option.getD_some] at h
      subst h
      exact detect_cycle_loop_true G _ _ _ hl
  · intro hcyc
    by_contra hdet
    have hdet' : detect_cycle G = false := by
      cases hd : detect_cycle G
      · rfl
      · exact absurd hd hdet
    unfold detect_cycle at hdet'
    cases hl : detect_cycle_loop G ((universeOf G).length + 1) (G.map Prod.fst) [] with
    | none =>
      exact detect_cycle_loop_ne_none G _ (G.map Prod.fst) []
        (fun k hk => keys_mem_universe hk) (by omega) hl
    | some b =>
      rw [hl] at hdet'
      simp only [Option.getD_some] at hdet'
      subst hdet'
      obtain ⟨u, htg⟩ := hcyc
      obtain ⟨v, hv, _⟩ := Relation.TransGen.head'_iff.mp htg
      exact detect_cycle_loop_false G _ _ _
        (fun x hx => by simp at hx) (fun x hx => by simp at hx) hl
        u (edge_mem_keys hv) htg

/-! ## Claim C1 -/

/-- **C1**: `detect_cycle` returns `true` exactly when the wait-for
graph contains a directed cycle; in particular, on the graph built from
the global state `{P1: {held: [R1], waiting: R2}, P2: {held: [R2],
waiting: R1}}` (ids `P1 = 1`, `P2 = 2`, `R1 = 1`, `R2 = 2`) it builds
`{P1: [P2], P2: [P1]}` and detects the two-node cycle through P1 and
P2. -/
theorem claim_C1_detect_cycle_iff :
    (∀ G : Graph, detect_cycle G = true ↔ hasCycle G) ∧
    build_wait_for_graph [(1, ⟨[1], some 2⟩), (2, ⟨[2], some 1⟩)] =
      [(1, [2]), (2, [1])] ∧
    detect_cycle [(1, [2]), (2, [1])] = true ∧
    Relation.TransGen (edge [(1, [2]), (2, [1])]) 1 1 ∧
    Relation.TransGen (edge [(1, [2]), (2, [1])]) 2 2 := by
  refine ⟨detect_cycle_correct, by decide, by decide, ?_, ?_⟩
  · exact (Relation.TransGen.single (by decide : edge [(1, [2]), (2, [1])] 1 2)).tail
      (by decide : edge [(1, [2]), (2, [1])] 2 1)
  · exact (Relation.TransGen.single (by decide : edge [(1, [2]), (2, [1])] 2 1)).tail
      (by decide : edge [(1, [2]), (2, [1])] 1 2)

/-! ## Characterization of `build_wait_for_graph` (claim C2) -/

/-! ## Characterization of `build_wait_for_graph` (claim C2) -/

theorem lookup?_nil {α : Type} (k : Nat) : lookup? ([] : List (Nat × α)) k = none := rfl

theorem lookup?_cons {α : Type} (a : Nat) (b : α) (l : List (Nat × α)) (k : Nat) :
    lookup? ((a, b) :: l) k = if a = k then some b else lookup? l k := by
  unfold lookup?
  by_cases h : a = k
  · rw [List.find?_cons_of_pos _ (by simpa using h), if_pos h]; rfl
  · rw [List.find?_cons_of_neg _ (by simpa using h), if_neg h]

theorem adjOf_nil (k : Nat) : adjOf [] k = [] := rfl

theorem adjOf_cons (a : Nat) (l : List Nat) (g : Graph) (k : Nat) :
    adjOf ((a, l) :: g) k = if a = k then l else adjOf g k := by
  unfold adjOf
  by_cases h : a = k
  · rw [List.find?_cons_of_pos _ (by simpa using h), if_pos h]; rfl
  · rw [List.find?_cons_of_neg _ (by simpa using h), if_neg h]

theorem lookup?_dictInsert {α : Type} (d : List (Nat × α)) (k : Nat) (v : α)
    (k' : Nat) :
    lookup? (dictInsert d k v) k' = if k' = k then some v else lookup? d k' := by
  induction d with
  | nil =>
    simp only [dictInsert]
    rw [lookup?_cons, lookup?_nil]
    by_cases h : k' = k
    · simp [h]
    · simp [h, Ne.symm h]
  | cons a rest ih =>
    rcases a with ⟨ak, av⟩
    simp only [dictInsert]
    by_cases hak : ak = k
    · subst hak
      rw [if_pos rfl, lookup?_cons, lookup?_cons]
      by_cases h : k' = ak
      · simp [h]
      · simp [h, Ne.symm h]
    · rw [if_neg hak, lookup?_cons, lookup?_cons, ih]
      by_cases h1 : ak = k'
      · by_cases h2 : k' = k
        · exact absurd (h1.trans h2) hak
        · simp [h1, h2]
      · by_cases h2 : k' = k
        · simp [h1, h2, show ¬ak = k from fun e => h1 (e.trans h2.symm)]
        · simp [h1, h2]

theorem adjOf_graphAppend (g : Graph) (k v : Nat) (k' : Nat) :
    adjOf (graphAppend g k v) k' =
      if k' = k then adjOf g k ++ [v] else adjOf g k' := by
  induction g with
  | nil =>
    simp only [graphAppend]
    rw [adjOf_cons, adjOf_nil]
    by_cases h : k' = k
    · simp [h, adjOf_nil]
    · simp [h, Ne.symm h]
  | cons a rest ih =>
    rcases a with ⟨ak, al⟩
    simp only [graphAppend]
    by_cases hak : ak = k
    · subst hak
      rw [if_pos rfl, adjOf_cons, adjOf_cons]
      by_cases h : k' = ak
      · simp [h, adjOf_cons]
      · simp [h, Ne.symm h, adjOf_cons]
    · rw [if_neg hak, adjOf_cons, adjOf_cons, ih]
      by_cases h1 : ak = k'
      · by_cases h2 : k' = k
        · exact absurd (h1.trans h2) hak
        · simp [h1, h2, adjOf_cons]
      · by_cases h2 : k' = k
        · simp [h1, h2, adjOf_cons, show ¬ak = k from fun e => h1 (e.trans h2.symm)]
        · simp [h1, h2, adjOf_cons]

/-- No table id is recorded as held by two different users in the
global state (the spec's mutual-exclusion assumption on snapshots). -/
def UniqueHolders (gs : GlobalState) : Prop :=
  ∀ a ∈ gs, ∀ b ∈ gs, ∀ r ∈ a.2.held_locks, r ∈ b.2.held_locks → a.1 = b.1

instance (gs : GlobalState) : Decidable (UniqueHolders gs) := by
  unfold UniqueHolders; infer_instance

theorem lookup?_holdFold (held : List Nat) (acc : List (Nat × Nat)) (u r : Nat) :
    lookup? (held.foldl (fun a t => dictInsert a t u) acc) r =
      if r ∈ held then some u else lookup? acc r := by
  induction held generalizing acc with
  | nil => simp
  | cons t ts ih =>
    rw [List.foldl_cons, ih, lookup?_dictInsert]
    by_cases h1 : r ∈ ts
    · simp [h1]
    · by_cases h2 : r = t
      · simp [h1, h2]
      · simp [h1, h2]

theorem lookup?_tableHolders_fold (gs : GlobalState) (r : Nat)
    (H : UniqueHolders gs) (acc : List (Nat × Nat)) :
    lookup? (gs.foldl (fun th p =>
        p.2.held_locks.foldl (fun th' t => dictInsert th' t p.1) th) acc) r =
      match gs.find? (fun p => decide (r ∈ p.2.held_locks)) with
      | some p => some p.1
      | none => lookup? acc r := by
  induction gs generalizing acc with
  | nil => simp
  | cons a gs' ih =>
    have H' : UniqueHolders gs' := by
      intro x hx y hy s hs hs'
      exact H x (List.mem_cons_of_mem a hx) y (List.mem_cons_of_mem a hy) s hs hs'
    rw [List.foldl_cons, ih H']
    by_cases hpred : r ∈ a.2.held_locks
    · rw [List.find?_cons_of_pos _ (by simpa using hpred)]
      cases hfind : gs'.find? (fun p => decide (r ∈ p.2.held_locks)) with
      | none => simp [lookup?_holdFold, hpred]
      | some q =>
        have hq : q ∈ gs' := List.mem_of_find?_eq_some hfind
        have hqr : r ∈ q.2.held_locks := by
          have := List.find?_some hfind; simpa using this
        have : q.1 = a.1 := H q (List.mem_cons_of_mem a hq) a (List.mem_cons_self a gs')
          r hqr hpred
        simp [this]
    · rw [List.find?_cons_of_neg _ (by simpa using hpred)]
      cases hfind : gs'.find? (fun p => decide (r ∈ p.2.held_locks)) with
      | none => simp [lookup?_holdFold, hpred]
      | some q => simp

/-- Under unique holding, `table_holders` maps `r` to `v` exactly when
some user `v` in the global state holds `r`. -/
theorem lookup?_tableHolders (gs : GlobalState) (r v : Nat) (H : UniqueHolders gs) :
    lookup? (tableHolders gs) r = some v ↔
      ∃ sv, (v, sv) ∈ gs ∧ r ∈ sv.held_locks := by
  unfold tableHolders
  rw [lookup?_tableHolders_fold gs r H []]
  constructor
  · intro h
    cases hfind : gs.find? (fun p => decide (r ∈ p.2.held_locks)) with
    | none => rw [hfind] at h; simp [lookup?_nil] at h
    | some q =>
      rw [hfind] at h
      have hq : q ∈ gs := List.mem_of_find?_eq_some hfind
      have hqr : r ∈ q.2.held_locks := by
        have := List.find?_some hfind; simpa using this
      have hv : q.1 = v := by simpa using h
      exact ⟨q.2, by rw [← hv]; exact hq, hqr⟩
  · rintro ⟨sv, hmem, hr⟩
    cases hfind : gs.find? (fun p => decide (r ∈ p.2.held_locks)) with
    | none =>
      have := List.find?_eq_none.mp hfind (v, sv) hmem
      simp [hr] at this
    | some q =>
      have hq : q ∈ gs := List.mem_of_find?_eq_some hfind
      have hqr : r ∈ q.2.held_locks := by
        have := List.find?_some hfind; simpa using this
      have : q.1 = v := H q hq (v, sv) hmem r hqr hr
      simp [this]

theorem mem_adjOf_buildFold (th : List (Nat × Nat)) (l : GlobalState) :
    ∀ (acc : Graph) (u v : Nat),
      v ∈ adjOf (l.foldl (buildStep th) acc) u ↔
        v ∈ adjOf acc u ∨
          ∃ su w, (u, su) ∈ l ∧ su.waiting_for = some w ∧
            lookup? th w = some v ∧ u ≠ v := by
  induction l with
  | nil => intro acc u v; simp
  | cons p l' ih =>
    intro acc u v
    rcases p with ⟨pu, pheld, pwait⟩
    rw [List.foldl_cons, ih]
    have hstep : v ∈ adjOf (buildStep th acc (pu, ⟨pheld, pwait⟩)) u ↔
        v ∈ adjOf acc u ∨
          (pu = u ∧ ∃ w, pwait = some w ∧ lookup? th w = some v ∧ u ≠ v) := by
      cases pwait with
      | none => simp [buildStep]
      | some w =>
        show v ∈ adjOf (match lookup? th w with
          | none => acc
          | some holder => if pu ≠ holder then graphAppend acc pu holder else acc) u ↔ _
        cases hl : lookup? th w with
        | none => simp [hl]
        | some holder =>
          show v ∈ adjOf (if pu ≠ holder then graphAppend acc pu holder else acc) u ↔ _
          by_cases hne : pu ≠ holder
          · rw [if_pos hne, adjOf_graphAppend]
            by_cases hu : u = pu
            · subst hu
              rw [if_pos rfl]
              constructor
              · intro hmem
                rcases List.mem_append.mp hmem with h | h
                · exact Or.inl h
                · have hv : v = holder := by simpa using h
                  exact Or.inr ⟨rfl, w, rfl, by rw [hl, hv],
                    fun e => hne (e.trans hv)⟩
              · rintro (h | ⟨-, w', hww', hl', -⟩)
                · exact List.mem_append.mpr (Or.inl h)
                · have hw' : w' = w := by injection hww' with h2; exact h2.symm
                  rw [hw', hl] at hl'
                  have hv : holder = v := by simpa using hl'
                  exact List.mem_append.mpr (Or.inr (by simp [hv]))
            · rw [if_neg hu]
              constructor
              · exact Or.inl
              · rintro (h | ⟨he, -⟩)
                · exact h
                · exact absurd he.symm hu
          · rw [if_neg hne]
            push_neg at hne
            constructor
            · exact Or.inl
            · rintro (h | ⟨he, w', hww', hl', hne'⟩)
              · exact h
              · have hw' : w' = w := by injection hww' with h2; exact h2.symm
                rw [hw', hl] at hl'
                have hv : holder = v := by simpa using hl'
                exact absurd (he.symm.trans (hne.trans hv)) hne'
    rw [hstep]
    constructor
    · rintro ((h | ⟨he, w, hww, hl, hne⟩) | ⟨su, w, hmem, hww, hl, hne⟩)
      · exact Or.inl h
      · exact Or.inr ⟨⟨pheld, pwait⟩, w, by rw [← he]; exact List.mem_cons_self _ l',
          hww, hl, hne⟩
      · exact Or.inr ⟨su, w, List.mem_cons_of_mem _ hmem, hww, hl, hne⟩
    · rintro (h | ⟨su, w, hmem, hww, hl, hne⟩)
      · exact Or.inl (Or.inl h)
      · rcases List.mem_cons.mp hmem with he | hmem'
        · have h1 : pu = u := by
            have := congrArg Prod.fst he; simpa using this.symm
          have h2 : su = (⟨pheld, pwait⟩ : PState) := by
            have := congrArg Prod.snd he; simpa using this
          refine Or.inl (Or.inr ⟨h1, w, ?_, hl, hne⟩)
          rw [h2] at hww
          simpa using hww
        · exact Or.inr ⟨su, w, hmem', hww, hl, hne⟩

/-! ## Claim C2 -/

/-- A global state in which two processes both record table 5 as held
while process 3 waits on it. -/
def gs3ex : GlobalState := [(1, ⟨[5], none⟩), (2, ⟨[5], none⟩), (3, ⟨[], some 5⟩)]

/-- **C2 (counterexample)**: in `gs3ex`, process 1 holds table 5,
process 3 waits on table 5 and differs from 1, yet the built graph has
no edge `3 -> 1` (the `table_holders` dict keeps only the last holder in
iteration order, here process 2), so the claimed edge characterization
fails as stated. -/
theorem claim_C2_counterexample :
    ¬ ((1 ∈ adjOf (build_wait_for_graph gs3ex) 3) ↔
        ∃ su w sv, ((3 : Nat), su) ∈ gs3ex ∧ su.waiting_for = some w ∧
          ((1 : Nat), sv) ∈ gs3ex ∧ w ∈ sv.held_locks ∧ (1 : Nat) ≠ 3) := by
  intro h
  have h1 : (1 : Nat) ∈ adjOf (build_wait_for_graph gs3ex) 3 :=
    h.mpr ⟨⟨[], some 5⟩, 5, ⟨[5], none⟩, by decide, rfl, by decide, by decide, by decide⟩
  exact absurd h1 (by decide)

/-- **C2 (amended)**: provided each table id is recorded as held by at
most one process in the global state, the built graph has an edge
`u -> v` exactly when `u` waits on a table held by `v ≠ u`; the empty
global state yields the empty graph, on which cycle detection returns
`false`. -/
theorem claim_C2_build_graph :
    (∀ gs : GlobalState, UniqueHolders gs → ∀ u v : Nat,
        (v ∈ adjOf (build_wait_for_graph gs) u ↔
          ∃ su w sv, (u, su) ∈ gs ∧ su.waiting_for = some w ∧
            (v, sv) ∈ gs ∧ w ∈ sv.held_locks ∧ v ≠ u)) ∧
    build_wait_for_graph [] = [] ∧ detect_cycle [] = false := by
  refine ⟨?_, rfl, rfl⟩
  intro gs H u v
  unfold build_wait_for_graph
  rw [mem_adjOf_buildFold]
  simp only [adjOf_nil, List.not_mem_nil, false_or]
  constructor
  · rintro ⟨su, w, hmem, hww, hl, hne⟩
    obtain ⟨sv, hv, hr⟩ := (lookup?_tableHolders gs w v H).mp hl
    exact ⟨su, w, sv, hmem, hww, hv, hr, Ne.symm hne⟩
  · rintro ⟨su, w, sv, hmem, hww, hv, hr, hne⟩
    exact ⟨su, w, hmem, hww, (lookup?_tableHolders gs w v H).mpr ⟨sv, hv, hr⟩,
      Ne.symm hne⟩

/-- The two-process deadlocked global state of the spec's test property. -/
def gs2ex : GlobalState := [(1, ⟨[1], some 2⟩), (2, ⟨[2], some 1⟩)]

/-- Witness for `claim_C2_build_graph` at the concrete state `gs2ex`. -/
theorem claim_C2_build_graph_witness :
    UniqueHolders gs2ex ∧
      (2 ∈ adjOf (build_wait_for_graph gs2ex) 1 ↔
        ∃ su w sv, ((1 : Nat), su) ∈ gs2ex ∧ su.waiting_for = some w ∧
          ((2 : Nat), sv) ∈ gs2ex ∧ w ∈ sv.held_locks ∧ (2 : Nat) ≠ 1) :=
  ⟨by decide, claim_C2_build_graph.1 gs2ex (by decide) 1 2⟩

/-! ## Claims C3 and C4: marker reception -/

/-- **C3 (counterexample)**: user 2 receives the first marker for
snapshot 5 from user 1 in a three-user system and forwards the marker
to users 1 and 3 — the sender (user 1) does receive a forwarded marker,
contradicting the claim that the sender is excluded. -/
theorem claim_C3_counterexample :
    ((receive_marker [1, 2, 3] (mkUser 2) 1 5).2.map Prod.fst = [1, 3]) ∧
      ¬ ((receive_marker [1, 2, 3] (mkUser 2) 1 5).2.all (fun m => m.1 ≠ 1)) := by
  constructor
  · decide
  · decide

/-- **C3 (amended)**: on the first marker seen for a snapshot id the
process records its local state `{held, waiting}` under that id, marks
the id as received, and puts one marker into the mailbox of every other
process except itself — the sender included whenever it differs from
the receiver; no marker is sent to the process itself. -/
theorem claim_C3_receive_marker (allIds : List Nat) (u : UserState)
    (from_user sid : Nat) (hfresh : sid ∉ u.received_marker) :
    let r := receive_marker allIds u from_user sid
    lookup? r.1.local_state sid = some ⟨u.held_locks, u.waiting_for⟩ ∧
    sid ∈ r.1.received_marker ∧
    r.1.held_locks = u.held_locks ∧
    r.1.waiting_for = u.waiting_for ∧
    r.1.running = u.running ∧
    r.2 = (allIds.filter (fun i => i ≠ u.id)).map (fun i => (i, ⟨u.id, sid⟩)) ∧
    (∀ m ∈ r.2, m.1 ≠ u.id) ∧
    (from_user ∈ allIds → from_user ≠ u.id → (from_user, Marker.mk u.id sid) ∈ r.2) := by
  intro r
  have hr : r = receive_marker allIds u from_user sid := rfl
  rw [receive_marker, if_neg hfresh] at hr
  refine ⟨?_, ?_, ?_, ?_, ?_, ?_, ?_, ?_⟩
  · rw [hr]
    simp [record_local_state, lookup?_dictInsert]
  · rw [hr]
    simp [record_local_state]
  · rw [hr]; rfl
  · rw [hr]; rfl
  · rw [hr]; rfl
  · rw [hr]; rfl
  · rw [hr]
    intro m hm
    simp only [markerSends, List.mem_map] at hm
    obtain ⟨i, hi, rfl⟩ := hm
    exact (List.mem_filter.mp hi).2 |> fun h => by simpa using h
  · intro hmem hne
    rw [hr]
    simp only [markerSends, List.mem_map]
    exact ⟨from_user, List.mem_filter.mpr ⟨hmem, by simpa using hne⟩, rfl⟩

/-- Witness for `claim_C3_receive_marker` at a concrete fresh marker. -/
theorem claim_C3_receive_marker_witness :
    (5 ∉ (mkUser 2).received_marker) ∧
      ((receive_marker [1, 2, 3] (mkUser 2) 1 5).2 =
        [(1, ⟨2, 5⟩), (3, ⟨2, 5⟩)]) := by
  refine ⟨by decide, ?_⟩
  have h := claim_C3_receive_marker [1, 2, 3] (mkUser 2) 1 5 (by decide)
  exact h.2.2.2.2.2.1.trans (by decide)

/-- **C4**: a second (or any later) `receive_marker` call for the same
snapshot id leaves the user's entire state — in particular the recorded
local-state entry — unchanged, and sends nothing. -/
theorem claim_C4_receive_marker_idempotent (allIds allIds' : List Nat)
    (u : UserState) (f f' sid : Nat) :
    receive_marker allIds' (receive_marker allIds u f sid).1 f' sid =
      ((receive_marker allIds u f sid).1, []) := by
  have hmem : sid ∈ (receive_marker allIds u f sid).1.received_marker := by
    rw [receive_marker]
    by_cases h : sid ∈ u.received_marker
    · rw [if_pos h]; exact h
    · rw [if_neg h]
      simp [record_local_state]
  rw [receive_marker, if_pos hmem]

/-! ## Claims C5, C7, C10: LockManager error handling -/

/-- **C5**: an acquire that is granted the raw resource lock while the
shutdown signal is set releases the lock immediately and reports
abandoned, not successful: in `LockManager.acquire_lock` the registry
and the caller's held set are unchanged (no owner assigned), and in
`User.try_acquire_lock` with `running = False` the user's held set and
the table's `locked_by` are unchanged. -/
theorem claim_C5_shutdown_abandons (tables : List DbTable) (conn : Conn)
    (tname : Nat) (t : DbTable) (hfind : findTable tables tname = some t)
    (hfree : t.write_lock = false)
    (u : UserState) (st : SimTable) (hrun : u.running = false)
    (hheld : st.id ∉ u.held_locks) :
    acquire_lock true tables conn tname =
      (tables, { conn with waiting_for_table := some tname }, AcqOutcome.abandoned) ∧
    (acquire_lock true tables conn tname).2.1.locked_tables = conn.locked_tables ∧
    try_acquire_lock true u st =
      ({ u with waiting_for := none }, { st with lock := false }) ∧
    (try_acquire_lock true u st).1.held_locks = u.held_locks ∧
    (try_acquire_lock true u st).2.locked_by = st.locked_by := by
  have ha : acquire_lock true tables conn tname =
      (tables, { conn with waiting_for_table := some tname }, AcqOutcome.abandoned) := by
    unfold acquire_lock
    rw [hfind]
    simp [hfree]
  have ht : try_acquire_lock true u st =
      ({ u with waiting_for := none }, { st with lock := false }) := by
    unfold try_acquire_lock
    rw [if_neg hheld, if_pos rfl, if_pos hrun]
  exact ⟨ha, by rw [ha], ht, by rw [ht], by rw [ht]⟩

/-- Witness for `claim_C5_shutdown_abandons` at concrete states. -/
theorem claim_C5_shutdown_abandons_witness :
    (findTable [⟨0, false, none⟩] 0 = some ⟨0, false, none⟩) ∧
    ({ mkUser 3 with running := false }.running = false) ∧
    acquire_lock true [⟨0, false, none⟩] ⟨1, [], none⟩ 0 =
      ([⟨0, false, none⟩], ⟨1, [], some 0⟩, AcqOutcome.abandoned) ∧
    try_acquire_lock true { mkUser 3 with running := false } ⟨4, false, none⟩ =
      ({ mkUser 3 with running := false, waiting_for := none }, ⟨4, false, none⟩) := by
  have h := claim_C5_shutdown_abandons [⟨0, false, none⟩] ⟨1, [], none⟩ 0
    ⟨0, false, none⟩ (by decide) rfl { mkUser 3 with running := false }
    ⟨4, false, none⟩ rfl (by decide)
  exact ⟨by decide, rfl, h.1.trans (by decide), h.2.2.1.trans (by decide)⟩

/-- **C7 (counterexample)**: releasing a resource unknown to the
`LockManager` is a silent no-op — the claimed warning is not reported
(the code returns before the warning branch). -/
theorem claim_C7_counterexample :
    (findTable ([] : List DbTable) 3 = none) ∧
      ¬ ((release_lock [] ⟨0, [], none⟩ 3).2.2 = true) := by
  exact ⟨rfl, by decide⟩

/-- **C7 (amended)**: a release by a caller that is not the resource's
owner, or of an unknown resource, never mutates any state (registry and
held set unchanged); the warning is reported exactly when the resource
is known and sits in the caller's `locked_tables` while being owned by
someone else — unknown resources and resources outside the caller's
held set are silently ignored. -/
theorem claim_C7_release_nonowner (tables : List DbTable) (conn : Conn)
    (tname : Nat)
    (hNotOwner : ∀ t, findTable tables tname = some t →
      t.lock_owner ≠ some conn.name) :
    (release_lock tables conn tname).1 = tables ∧
    (release_lock tables conn tname).2.1 = conn ∧
    ((release_lock tables conn tname).2.2 = true ↔
      ∃ t, findTable tables tname = some t ∧ tname ∈ conn.locked_tables) := by
  unfold release_lock
  cases hf : findTable tables tname with
  | none => refine ⟨rfl, rfl, by simp⟩
  | some t =>
    by_cases hmem : tname ∈ conn.locked_tables
    · refine ⟨?_, ?_, ?_⟩ <;> simp [hmem, hNotOwner t hf]
    · refine ⟨?_, ?_, ?_⟩ <;> simp [hmem]

/-- Witness for `claim_C7_release_nonowner`: a release of a table the
caller lists as held but which is owned by connection 9 warns and
mutates nothing. -/
theorem claim_C7_release_nonowner_witness :
    ((release_lock [⟨3, true, some 9⟩] ⟨0, [3], none⟩ 3).1 = [⟨3, true, some 9⟩]) ∧
    ((release_lock [⟨3, true, some 9⟩] ⟨0, [3], none⟩ 3).2.1 = ⟨0, [3], none⟩) ∧
    ((release_lock [⟨3, true, some 9⟩] ⟨0, [3], none⟩ 3).2.2 = true ↔
      ∃ t, findTable [⟨3, true, some 9⟩] 3 = some t ∧ 3 ∈ [3]) := by
  have h := claim_C7_release_nonowner [⟨3, true, some 9⟩] ⟨0, [3], none⟩ 3
    (by intro t ht; cases ht; decide)
  exact h

/-- **C10**: acquiring a table name absent from the `LockManager`
registry returns immediately with no lock taken and no change to the
connection (its `waiting_for_table` and held set are untouched). -/
theorem claim_C10_unknown_acquire (sd : Bool) (tables : List DbTable)
    (conn : Conn) (tname : Nat) (h : findTable tables tname = none) :
    acquire_lock sd tables conn tname = (tables, conn, AcqOutcome.unknown) := by
  unfold acquire_lock
  rw [h]

/-- Witness for `claim_C10_unknown_acquire` on the empty registry. -/
theorem claim_C10_unknown_acquire_witness :
    (findTable ([] : List DbTable) 0 = none) ∧
      acquire_lock false [] ⟨1, [], none⟩ 0 = ([], ⟨1, [], none⟩, AcqOutcome.unknown) :=
  ⟨rfl, claim_C10_unknown_acquire false [] ⟨1, [], none⟩ 0 rfl⟩

/-! ## Claim C6: transaction cleanup on shutdown -/

/-- The shutdown oracle of the failing run: the flag is clear for reads
0 and 1 (loop-top check and the re-check inside `acquire_lock`, so the
lock is granted) and set from read 2 on (the caller's check right after
`acquire_lock` returns).  The oracle is monotone, as the real
`shutdown_event` is set once and never cleared. -/
def sdFlip : Nat → Bool := fun i => decide (2 ≤ i)

/-- **C6 (bug witness)**: a single-table write transaction on the free
table 7 whose shutdown flag becomes set immediately after
`acquire_lock` grants: the `if shutdown: break` after the call skips
`acquired_locks.append`, the `finally` block releases nothing, and the
connection exits the abandoned transaction still owning table 7 —
contradicting the claim that an abandoned transaction ends holding zero
of its resources. -/
theorem claim_C6_abandoned_transaction_leak :
    (∀ i j, i ≤ j → sdFlip i = true → sdFlip j = true) ∧
    (perform_write_transaction sdFlip [⟨7, false, none⟩] ⟨1, [], none⟩ [7]).performed_write
      = false ∧
    (perform_write_transaction sdFlip [⟨7, false, none⟩] ⟨1, [], none⟩ [7]).releases = [] ∧
    (perform_write_transaction sdFlip [⟨7, false, none⟩] ⟨1, [], none⟩ [7]).conn.locked_tables
      = [7] ∧
    (perform_write_transaction sdFlip [⟨7, false, none⟩] ⟨1, [], none⟩ [7]).tables
      = [⟨7, true, some 1⟩] := by
  refine ⟨?_, rfl, rfl, rfl, rfl⟩
  intro i j hij hi
  simp only [sdFlip, decide_eq_true_eq] at hi ⊢
  omega

/-! ## Claim C8: the waiting-for invariant of the `User` process -/

/-- A user never waits on a table already in its own held set. -/
def UserInv (u : UserState) : Prop :=
  ∀ t, u.waiting_for = some t → t ∉ u.held_locks

theorem try_acquire_lock_inv (grant : Bool) (u : UserState) (st : SimTable)
    (hpre : ∀ t, u.waiting_for = some t → t = st.id ∨ t ∉ u.held_locks) :
    UserInv (try_acquire_lock grant u st).1 := by
  unfold try_acquire_lock
  by_cases h1 : st.id ∈ u.held_locks
  · rw [if_pos h1]
    intro t ht
    simp at ht
  · rw [if_neg h1]
    cases grant with
    | true =>
      rw [if_pos rfl]
      by_cases h2 : u.running = false
      · rw [if_pos h2]
        intro t ht
        simp at ht
      · rw [if_neg h2]
        intro t ht
        simp at ht
    | false =>
      rw [if_neg (by simp)]
      intro t ht
      rcases hpre t ht with rfl | hmem
      · exact h1
      · exact hmem

theorem ustep_inv {u u' : UserState} (h : UStep u u') (hI : UserInv u) :
    UserInv u' := by
  cases h with
  | act o hwait =>
    unfold perform_action
    by_cases hr : u.running = false
    · rw [if_pos hr]
      exact hI
    · rw [if_neg hr]
      obtain ⟨uid, held, wf, run, ls, rm⟩ := u
      cases wf with
      | some t0 =>
        refine try_acquire_lock_inv o.grant _ o.chosen (fun t ht => ?_)
        have := hwait t0 rfl
        have ht0 : t = t0 := by have := ht; simp at this; omega
        exact Or.inl (ht0.trans this.symm)
      | none =>
        by_cases hw : o.act_write = true
        · rw [if_pos hw]
          refine try_acquire_lock_inv o.grant _ o.chosen (fun t ht => ?_)
          exact Or.inl (by have := ht; simp at this; omega)
        · rw [if_neg hw]
          exact hI
  | stop =>
    intro t ht
    exact hI t ht
  | recv allIds frm sid =>
    unfold receive_marker
    by_cases h : sid ∈ u.received_marker
    · rw [if_pos h]
      exact hI
    · rw [if_neg h]
      intro t ht
      exact hI t ht
  | init allIds sid =>
    unfold initiate_snapshot
    by_cases h : sid ∈ u.received_marker
    · rw [if_pos h]
      exact hI
    · rw [if_neg h]
      intro t ht
      exact hI t ht

/-- **C8**: in every state a user can reach from construction, the
waiting-for field is `some t` exactly when the retry goal `t` is
outstanding and unsatisfied (`t` not yet in the held set), and a user
never waits on a table already in its own held set; every operation
(action selection, acquire, stop/shutdown, marker handling) preserves
this. -/
theorem claim_C8_waiting_invariant (uid : Nat) (u : UserState)
    (h : UReachable uid u) :
    ((u.waiting_for ≠ none) ↔ ∃ t, u.waiting_for = some t ∧ t ∉ u.held_locks) ∧
      UserInv u := by
  have hI : UserInv u := by
    induction h with
    | refl => intro t ht; simp [mkUser] at ht
    | tail hs hstep ih => exact ustep_inv hstep ih
  refine ⟨⟨?_, ?_⟩, hI⟩
  · intro hne
    cases hw : u.waiting_for with
    | none => exact absurd hw hne
    | some t => exact ⟨t, rfl, hI t hw⟩
  · rintro ⟨t, ht, -⟩
    rw [ht]
    simp

/-- Witness for `claim_C8_waiting_invariant`: the freshly constructed
user 3, and the state after one granted write action on table 2. -/
theorem claim_C8_waiting_invariant_witness :
    (UReachable 3 (mkUser 3) ∧ UserInv (mkUser 3)) ∧
      (UReachable 3 (perform_action ⟨true, ⟨2, false, none⟩, true⟩ (mkUser 3)).1 ∧
        UserInv (perform_action ⟨true, ⟨2, false, none⟩, true⟩ (mkUser 3)).1) := by
  have hstep : UStep (mkUser 3) (perform_action ⟨true, ⟨2, false, none⟩, true⟩ (mkUser 3)).1 :=
    UStep.act (mkUser 3) ⟨true, ⟨2, false, none⟩, true⟩
      (fun t ht => by simp [mkUser] at ht)
  exact ⟨⟨Relation.ReflTransGen.refl,
      (claim_C8_waiting_invariant 3 (mkUser 3) Relation.ReflTransGen.refl).2⟩,
    ⟨Relation.ReflTransGen.single hstep,
      (claim_C8_waiting_invariant 3 _ (Relation.ReflTransGen.single hstep)).2⟩⟩

/-! ## Claim C9: mutual exclusion over interleaved executions -/

theorem acquire_lock_not_found (sd : Bool) (tables : List DbTable) (conn : Conn)
    (tname : Nat) (hf : findTable tables tname = none) :
    acquire_lock sd tables conn tname = (tables, conn, AcqOutcome.unknown) := by
  unfold acquire_lock
  rw [hf]

theorem acquire_lock_blocked (sd : Bool) (tables : List DbTable) (conn : Conn)
    (tname : Nat) (t : DbTable) (hf : findTable tables tname = some t)
    (hl : t.write_lock = true) :
    acquire_lock sd tables conn tname =
      (tables, { conn with waiting_for_table := some tname }, AcqOutcome.blocked) := by
  unfold acquire_lock
  rw [hf]
  simp [hl]

theorem acquire_lock_abandoned (tables : List DbTable) (conn : Conn)
    (tname : Nat) (t : DbTable) (hf : findTable tables tname = some t)
    (hl : t.write_lock = false) :
    acquire_lock true tables conn tname =
      (tables, { conn with waiting_for_table := some tname }, AcqOutcome.abandoned) := by
  unfold acquire_lock
  rw [hf]
  simp [hl]

theorem acquire_lock_granted (tables : List DbTable) (conn : Conn)
    (tname : Nat) (t : DbTable) (hf : findTable tables tname = some t)
    (hl : t.write_lock = false) :
    acquire_lock false tables conn tname =
      (updateTable tables tname
         (fun tb => { tb with write_lock := true, lock_owner := some conn.name }),
       { conn with locked_tables := setAdd conn.locked_tables tname,
                   waiting_for_table := none },
       AcqOutcome.granted) := by
  unfold acquire_lock
  rw [hf]
  simp [hl]

theorem release_lock_not_found (tables : List DbTable) (conn : Conn)
    (tname : Nat) (hf : findTable tables tname = none) :
    release_lock tables conn tname = (tables, conn, false) := by
  unfold release_lock
  rw [hf]

theorem release_lock_not_held (tables : List DbTable) (conn : Conn)
    (tname : Nat) (t : DbTable) (hf : findTable tables tname = some t)
    (hm : tname ∉ conn.locked_tables) :
    release_lock tables conn tname = (tables, conn, false) := by
  unfold release_lock
  rw [hf]
  simp [hm]

theorem release_lock_owner_eq (tables : List DbTable) (conn : Conn)
    (tname : Nat) (t : DbTable) (hf : findTable tables tname = some t)
    (hm : tname ∈ conn.locked_tables) (ho : t.lock_owner = some conn.name) :
    release_lock tables conn tname =
      (updateTable tables tname
         (fun tb => { tb with write_lock := false, lock_owner := none }),
       { conn with locked_tables := conn.locked_tables.filter (fun y => y ≠ tname) },
       false) := by
  unfold release_lock
  rw [hf]
  simp [hm, ho]

theorem release_lock_wrong_owner (tables : List DbTable) (conn : Conn)
    (tname : Nat) (t : DbTable) (hf : findTable tables tname = some t)
    (hm : tname ∈ conn.locked_tables) (ho : ¬ t.lock_owner = some conn.name) :
    release_lock tables conn tname = (tables, conn, true) := by
  unfold release_lock
  rw [hf]
  simp [hm, ho]

theorem getConn_name {s : SysState} {c : Nat} {conn : Conn}
    (h : getConn s c = some conn) : conn.name = c := by
  have := List.find?_some h
  simpa using this

/-- Any table owned by `p` after one step either was already owned by
`p` (same name) before the step, or the step was an acquire by `p` of
that very table whose outcome was `granted`. -/
theorem sysStep_owner_cases (s : SysState) (op : SysOp) (t' : DbTable) (p : Nat)
    (hmem : t' ∈ (sysStep s op).tables) (hown : t'.lock_owner = some p) :
    (∃ t ∈ s.tables, t.lock_owner = some p ∧ t.name = t'.name) ∨
    (∃ c tname sd conn, op = SysOp.acquire c tname sd ∧ getConn s c = some conn ∧
       (acquire_lock sd s.tables conn tname).2.2 = AcqOutcome.granted ∧
       p = c ∧ t'.name = tname) := by
  cases op with
  | acquire c tname sd =>
    cases hg : getConn s c with
    | none =>
      simp only [sysStep, hg] at hmem
      exact Or.inl ⟨t', hmem, hown, rfl⟩
    | some conn =>
      cases hf : findTable s.tables tname with
      | none =>
        simp only [sysStep, hg,
          acquire_lock_not_found sd s.tables conn tname hf] at hmem
        exact Or.inl ⟨t', hmem, hown, rfl⟩
      | some t =>
        cases hl : t.write_lock with
        | true =>
          simp only [sysStep, hg,
            acquire_lock_blocked sd s.tables conn tname t hf hl] at hmem
          exact Or.inl ⟨t', hmem, hown, rfl⟩
        | false =>
          cases sd with
          | true =>
            simp only [sysStep, hg,
              acquire_lock_abandoned s.tables conn tname t hf hl] at hmem
            exact Or.inl ⟨t', hmem, hown, rfl⟩
          | false =>
            simp only [sysStep, hg,
              acquire_lock_granted s.tables conn tname t hf hl,
              updateTable, List.mem_map] at hmem
            obtain ⟨t0, ht0mem, ht0eq⟩ := hmem
            by_cases hn : (t0.name == tname) = true
            · rw [if_pos hn] at ht0eq
              have hpc : p = conn.name := by
                rw [← ht0eq] at hown
                simp at hown
                omega
              refine Or.inr ⟨c, tname, false, conn, rfl, hg, ?_, ?_, ?_⟩
              · rw [acquire_lock_granted s.tables conn tname t hf hl]
              · rw [hpc, getConn_name hg]
              · rw [← ht0eq]
                simpa using hn
            · rw [if_neg hn] at ht0eq
              exact Or.inl ⟨t0, ht0mem, by rw [ht0eq]; exact hown, by rw [ht0eq]⟩
  | release c tname =>
    cases hg : getConn s c with
    | none =>
      simp only [sysStep, hg] at hmem
      exact Or.inl ⟨t', hmem, hown, rfl⟩
    | some conn =>
      cases hf : findTable s.tables tname with
      | none =>
        simp only [sysStep, hg,
          release_lock_not_found s.tables conn tname hf] at hmem
        exact Or.inl ⟨t', hmem, hown, rfl⟩
      | some t =>
        by_cases hm : tname ∈ conn.locked_tables
        · by_cases ho : t.lock_owner = some conn.name
          · simp only [sysStep, hg,
              release_lock_owner_eq s.tables conn tname t hf hm ho,
              updateTable, List.mem_map] at hmem
            obtain ⟨t0, ht0mem, ht0eq⟩ := hmem
            by_cases hn : (t0.name == tname) = true
            · rw [if_pos hn] at ht0eq
              rw [← ht0eq] at hown
              simp at hown
            · rw [if_neg hn] at ht0eq
              exact Or.inl ⟨t0, ht0mem, by rw [ht0eq]; exact hown, by rw [ht0eq]⟩
          · simp only [sysStep, hg,
              release_lock_wrong_owner s.tables conn tname t hf hm ho] at hmem
            exact Or.inl ⟨t', hmem, hown, rfl⟩
        · simp only [sysStep, hg,
            release_lock_not_held s.tables conn tname t hf hm] at hmem
          exact Or.inl ⟨t', hmem, hown, rfl⟩

theorem grantedAt_append {s0 : SysState} {ops : List SysOp} {k p n : Nat}
    (op : SysOp) (h : GrantedAt s0 ops k p n) :
    GrantedAt s0 (ops ++ [op]) k p n := by
  obtain ⟨sd, conn, h1, h2, h3⟩ := h
  have hk : k < ops.length := (List.getElem?_eq_some.mp h1).1
  have htake : (ops ++ [op]).take k = ops.take k :=
    List.take_append_of_le_length (Nat.le_of_lt hk)
  refine ⟨sd, conn, ?_, ?_, ?_⟩
  · rw [List.getElem?_append, if_pos hk]
    exact h1
  · rw [htake]
    exact h2
  · rw [htake]
    exact h3

/-- **C9**: along every interleaving of acquire and release operations
from an ownerless initial state, every table has at most one owner at
every instant, and a table owned by `p` was successfully granted to `p`
by some earlier acquire operation of the run. -/
theorem claim_C9_mutual_exclusion (s0 : SysState) (ops : List SysOp)
    (hinit : ∀ t ∈ s0.tables, t.lock_owner = none) :
    ∀ t' ∈ (runOps s0 ops).tables, ∀ p, t'.lock_owner = some p →
      (∀ q, t'.lock_owner = some q → q = p) ∧
      ∃ k, GrantedAt s0 ops k p t'.name := by
  induction ops using List.reverseRecOn with
  | nil =>
    intro t' hmem p hp
    rw [hinit t' hmem] at hp
    cases hp
  | append_singleton as op ih =>
    intro t' hmem p hp
    have huniq : ∀ q, t'.lock_owner = some q → q = p := by
      intro q hq
      rw [hp] at hq
      exact (Option.some.inj hq).symm
    have hrun : runOps s0 (as ++ [op]) = sysStep (runOps s0 as) op := by
      simp [runOps, List.foldl_append]
    rw [hrun] at hmem
    rcases sysStep_owner_cases (runOps s0 as) op t' p hmem hp with
      ⟨t, htmem, hto, htn⟩ | ⟨c, tname, sd, conn, hop, hg, hgr, hpc, htn⟩
    · obtain ⟨-, k, hk⟩ := ih t htmem p hto
      exact ⟨huniq, k, htn ▸ grantedAt_append op hk⟩
    · refine ⟨huniq, as.length, ?_⟩
      rw [htn, hpc]
      refine ⟨sd, conn, ?_, ?_, ?_⟩
      · rw [List.getElem?_concat_length, hop]
      · rw [List.take_left]
        exact hg
      · rw [List.take_left]
        exact hgr

/-- Witness for `claim_C9_mutual_exclusion`: one connection acquires
table 0 (granted), a second connection then tries to acquire it
(blocked) — table 0 ends owned by connection 1, justified by the grant
at step 0. -/
theorem claim_C9_mutual_exclusion_witness :
    (∀ t ∈ (SysState.mk [⟨0, false, none⟩] [⟨1, [], none⟩, ⟨2, [], none⟩]).tables,
        t.lock_owner = none) ∧
    (∀ t' ∈ (runOps (SysState.mk [⟨0, false, none⟩] [⟨1, [], none⟩, ⟨2, [], none⟩])
          [SysOp.acquire 1 0 false, SysOp.acquire 2 0 false]).tables,
        ∀ p, t'.lock_owner = some p →
          (∀ q, t'.lock_owner = some q → q = p) ∧
          ∃ k, GrantedAt (SysState.mk [⟨0, false, none⟩] [⟨1, [], none⟩, ⟨2, [], none⟩])
            [SysOp.acquire 1 0 false, SysOp.acquire 2 0 false] k p t'.name) :=
  ⟨by decide,
   claim_C9_mutual_exclusion
     (SysState.mk [⟨0, false, none⟩] [⟨1, [], none⟩, ⟨2, [], none⟩])
     [SysOp.acquire 1 0 false, SysOp.acquire 2 0 false] (by decide)⟩

end LamportDeadlock
